import Mathlib

/-!
Formal model of the alignment-estimation core of the fmralign repository.

The repository's core (spec sections 4.1, 4.2, 4.4) consists of the closed-form
Procrustes solver `scaled_procrustes`, the fit/transform alignment-method
objects, and the piecewise orchestrator.  Matrices are embedded as
`Matrix (Fin n) (Fin p) ℚ`: rational arithmetic models the exact content of the
floating-point computation, so every approximate equality of the documentation
(tolerance about 1e-6) becomes an exact equality here.  The singular value
decomposition is an external library service in the source (scipy/numpy); it is
modelled by passing decomposition data explicitly, with its defining properties
(orthonormal factors, nonnegative diagonal, reconstruction of the decomposed
matrix) as hypotheses of the theorems.
-/

namespace Fmralign

open Matrix

/-- SampleMatrix of the data model: rows are samples, columns are features. -/
abbrev Mat (n p : ℕ) : Type := Matrix (Fin n) (Fin p) ℚ

/-- Squared Frobenius norm of a matrix. -/
def frobSq {n p : ℕ} (M : Mat n p) : ℚ := ∑ i, ∑ j, (M i j) ^ 2

/-- Frobenius inner product of two equally shaped matrices. -/
def frobInner {n p : ℕ} (M N : Mat n p) : ℚ := ∑ i, ∑ j, M i j * N i j

/-- Orthogonality of a square matrix: both products with the transpose give the
identity, exactly as the spec states the invariant. -/
def orthogonalM {p : ℕ} (Q : Mat p p) : Prop := Qᵀ * Q = 1 ∧ Q * Qᵀ = 1

instance decOrthogonalM {p : ℕ} (Q : Mat p p) : Decidable (orthogonalM Q) := by
  unfold orthogonalM
  infer_instance

/-- Positive semidefiniteness over ℚ: symmetric with nonnegative quadratic form. -/
def PSD {p : ℕ} (B : Mat p p) : Prop :=
  Bᵀ = B ∧ ∀ z : Fin p → ℚ, 0 ≤ dotProduct z (B.mulVec z)

/-- Output of one singular value decomposition A = U * diagonal S * Vᵀ, as
delivered by the external linear-algebra library. `k` is the inner dimension
(`k = p` for a full decomposition of a p×p matrix). -/
structure SVDData (p k : ℕ) where
  U : Matrix (Fin p) (Fin k) ℚ
  S : Fin k → ℚ
  V : Matrix (Fin p) (Fin k) ℚ

/-- The defining properties of a singular value decomposition of `A`:
orthonormal columns, nonnegative singular values, reconstruction. -/
def SVDData.valid {p k : ℕ} (A : Mat p p) (d : SVDData p k) : Prop :=
  d.Uᵀ * d.U = 1 ∧ d.Vᵀ * d.V = 1 ∧ (∀ i, 0 ≤ d.S i) ∧
    A = d.U * diagonal d.S * d.Vᵀ

instance decSVDValid {p k : ℕ} (A : Mat p p) (d : SVDData p k) :
    Decidable (d.valid A) := by
  unfold SVDData.valid
  infer_instance

/-- Decomposition data used by the dual formulation of `scaled_procrustes`:
thin singular value decompositions of X and of Y (inner dimension `k`, which is
`min n p` in the source), and a singular value decomposition of the small
matrix diagonal Sy * Uyᵀ * Ux * diagonal Sx computed from them. -/
structure DualSVD (n p k : ℕ) where
  Ux : Matrix (Fin n) (Fin k) ℚ
  Sx : Fin k → ℚ
  Vx : Matrix (Fin p) (Fin k) ℚ
  Uy : Matrix (Fin n) (Fin k) ℚ
  Sy : Fin k → ℚ
  Vy : Matrix (Fin p) (Fin k) ℚ
  Uc : Matrix (Fin k) (Fin k) ℚ
  Sc : Fin k → ℚ
  Vc : Matrix (Fin k) (Fin k) ℚ

/-- Validity of dual decomposition data for the pair X, Y. -/
def DualSVD.valid {n p k : ℕ} (X Y : Mat n p) (dd : DualSVD n p k) : Prop :=
  dd.Uxᵀ * dd.Ux = 1 ∧ dd.Vxᵀ * dd.Vx = 1 ∧ (∀ i, 0 ≤ dd.Sx i) ∧
    X = dd.Ux * diagonal dd.Sx * dd.Vxᵀ ∧
  dd.Uyᵀ * dd.Uy = 1 ∧ dd.Vyᵀ * dd.Vy = 1 ∧ (∀ i, 0 ≤ dd.Sy i) ∧
    Y = dd.Uy * diagonal dd.Sy * dd.Vyᵀ ∧
  dd.Ucᵀ * dd.Uc = 1 ∧ dd.Vcᵀ * dd.Vc = 1 ∧ (∀ i, 0 ≤ dd.Sc i) ∧
    diagonal dd.Sy * dd.Uyᵀ * dd.Ux * diagonal dd.Sx =
      dd.Uc * diagonal dd.Sc * dd.Vcᵀ

instance decDualValid {n p k : ℕ} (X Y : Mat n p) (dd : DualSVD n p k) :
    Decidable (dd.valid X Y) := by
  unfold DualSVD.valid
  infer_instance

/-- The first return value of `scaled_procrustes` at the public interface: the
degenerate branch returns a scipy sparse identity, the generic branches return
dense ndarrays.  The tag records which kind of object came back. -/
inductive RMat (p : ℕ) where
  | sparse (R : Mat p p) : RMat p
  | dense (R : Mat p p) : RMat p

/-- Numeric content of the returned matrix object (what `.toarray()` yields on
the sparse branch, the array itself on the dense branch). -/
def RMat.toMatrix {p : ℕ} : RMat p → Mat p p
  | RMat.sparse R => R
  | RMat.dense R => R

/-- Whether the returned object is a sparse matrix. -/
def RMat.isSparse {p : ℕ} : RMat p → Bool
  | RMat.sparse _ => true
  | RMat.dense _ => false

/-- Modelled from the spec: `scaled_procrustes(X, Y, scaling, primal)` of
`fmralign/alignment_methods.py` (the module itself is absent from the sources;
only its tests are present).  Spec 4.1: on the degenerate input Y = 0 it
returns the (sparse) identity; otherwise it computes the optimal orthogonal
matrix from a singular value decomposition of Yᵗ·X in the primal formulation,
or the dual formulation built from thin decompositions of X and Y when n < p;
`primal=None` selects the primal formulation exactly when n ≥ p; with
`scaling=True` the scale is the sum of the singular values of the decomposition
divided by the squared Frobenius norm of X, and with `scaling=False` it is 1.
The decompositions, computed by the external library in the source, are passed
in as `d` (for Yᵗ·X) and `dd` (for the dual formulation). -/
def scaled_procrustes {n p k : ℕ} (X Y : Mat n p) (d : SVDData p p)
    (dd : DualSVD n p k) (scaling : Bool) (primal : Option Bool) :
    RMat p × ℚ :=
  if Y = 0 then (RMat.sparse 1, 1)
  else if primal.getD (decide (p ≤ n)) then
    (RMat.dense (d.U * d.Vᵀ),
      if scaling then (∑ i, d.S i) / frobSq X else 1)
  else
    (RMat.dense (dd.Vy * dd.Uc * dd.Vcᵀ * dd.Vxᵀ),
      if scaling then (∑ i, dd.Sc i) / frobSq X else 1)

/-- Error taxonomy of the spec (section 7) for the alignment method objects. -/
inductive AlignError where
  | notFitted : AlignError
  | shapeMismatch : AlignError

/-- Modelled from the spec: the `ScaledOrthogonalAlignment` alignment method
object of `fmralign/alignment_methods.py` (absent from the sources).  Fitted
state is the stored pair (R, scale); `none` models the unfitted object. -/
structure ScaledOrthogonalAlignment (p : ℕ) where
  scaling : Bool
  fitted : Option (Mat p p × ℚ)

/-- A freshly constructed, unfitted `ScaledOrthogonalAlignment`. -/
def ScaledOrthogonalAlignment.new (p : ℕ) (scaling : Bool) :
    ScaledOrthogonalAlignment p :=
  ⟨scaling, none⟩

/-- Modelled from the spec: `fit(X, Y)` runs `scaled_procrustes` with default
`primal=None` and stores the resulting mixing matrix and scale. -/
def ScaledOrthogonalAlignment.fit {p n k : ℕ} (m : ScaledOrthogonalAlignment p)
    (X Y : Mat n p) (d : SVDData p p) (dd : DualSVD n p k) :
    ScaledOrthogonalAlignment p :=
  let r := scaled_procrustes X Y d dd m.scaling none
  ⟨m.scaling, some (r.1.toMatrix, r.2)⟩

/-- Modelled from the spec: `transform` applies the stored transformation
(scale times mixing matrix) to new data, and fails with NotFittedError before
any fit. -/
def ScaledOrthogonalAlignment.transform {p q : ℕ}
    (m : ScaledOrthogonalAlignment p) (Z : Matrix (Fin p) (Fin q) ℚ) :
    Except AlignError (Matrix (Fin p) (Fin q) ℚ) :=
  match m.fitted with
  | none => Except.error AlignError.notFitted
  | some rs => Except.ok (rs.2 • (rs.1 * Z))

/-- Modelled from the spec: the Identity alignment method object. -/
structure Identity where
  fitted : Option Unit

/-- A freshly constructed, unfitted `Identity`. -/
def Identity.new : Identity := ⟨none⟩

/-- Modelled from the spec: identity `transform` is a no-op on fitted objects
and fails with NotFittedError before any fit. -/
def Identity.transform {n p : ℕ} (m : Identity) (Z : Mat n p) :
    Except AlignError (Mat n p) :=
  match m.fitted with
  | none => Except.error AlignError.notFitted
  | some _ => Except.ok Z

/-- Modelled from the spec: the Permutation alignment method object; its fitted
state is the one-to-one feature correspondence found by the external linear
assignment solver. -/
structure Permutation (p : ℕ) where
  fitted : Option (Equiv.Perm (Fin p))

/-- A freshly constructed, unfitted `Permutation`. -/
def Permutation.new (p : ℕ) : Permutation p := ⟨none⟩

/-- Modelled from the spec: permutation `transform` permutes the feature rows
of fitted objects and fails with NotFittedError before any fit. -/
def Permutation.transform {p q : ℕ} (m : Permutation p)
    (Z : Matrix (Fin p) (Fin q) ℚ) :
    Except AlignError (Matrix (Fin p) (Fin q) ℚ) :=
  match m.fitted with
  | none => Except.error AlignError.notFitted
  | some s => Except.ok (fun i j => Z (s i) j)

/-- Modelled from the spec: the optimal-transport alignment method object; its
fitted state is the coupling matrix delivered by the external entropic solver. -/
structure OptimalTransportAlignment (p : ℕ) where
  fitted : Option (Mat p p)

/-- A freshly constructed, unfitted `OptimalTransportAlignment`. -/
def OptimalTransportAlignment.new (p : ℕ) : OptimalTransportAlignment p :=
  ⟨none⟩

/-- Modelled from the spec: transport `transform` applies the stored coupling
on fitted objects and fails with NotFittedError before any fit. -/
def OptimalTransportAlignment.transform {p q : ℕ}
    (m : OptimalTransportAlignment p) (Z : Matrix (Fin p) (Fin q) ℚ) :
    Except AlignError (Matrix (Fin p) (Fin q) ℚ) :=
  match m.fitted with
  | none => Except.error AlignError.notFitted
  | some R => Except.ok (R * Z)

/-- Modelled from the spec: the ridge alignment method object; its fitted state
is the regression matrix of the L2-regularized least-squares solve. -/
structure RidgeAlignment (p : ℕ) where
  fitted : Option (Mat p p)

/-- A freshly constructed, unfitted `RidgeAlignment`. -/
def RidgeAlignment.new (p : ℕ) : RidgeAlignment p := ⟨none⟩

/-- Modelled from the spec: ridge `transform` applies the stored regression
matrix on fitted objects and fails with NotFittedError before any fit. -/
def RidgeAlignment.transform {p q : ℕ} (m : RidgeAlignment p)
    (Z : Matrix (Fin p) (Fin q) ℚ) :
    Except AlignError (Matrix (Fin p) (Fin q) ℚ) :=
  match m.fitted with
  | none => Except.error AlignError.notFitted
  | some R => Except.ok (R * Z)

/-- An alignment method as consumed by the piecewise orchestrator: for any
finite feature-index type it fits on a pair of sample matrices and transforms
new data over those features.  Fit and transform are fused since the
orchestrator always pipes one into the other region by region. -/
structure AlignMethod (ns : ℕ) where
  fitTransform : ∀ (J : Type) (_ : Fintype J) (_ : DecidableEq J),
    Matrix (Fin ns) J ℚ → Matrix (Fin ns) J ℚ →
    ∀ (m : ℕ), Matrix (Fin m) J ℚ → Matrix (Fin m) J ℚ

/-- An alignment method is natural when it commutes with relabelling of the
feature axis; every concrete method of the library only looks at the column
values, so it satisfies this. -/
def AlignMethod.Natural {ns : ℕ} (M : AlignMethod ns) : Prop :=
  ∀ (J K : Type) (iJ : Fintype J) (dJ : DecidableEq J)
    (iK : Fintype K) (dK : DecidableEq K) (e : K ≃ J)
    (X Y : Matrix (Fin ns) J ℚ) (m : ℕ) (Z : Matrix (Fin m) J ℚ),
    M.fitTransform K iK dK (X.submatrix id e) (Y.submatrix id e) m
        (Z.submatrix id e) =
      fun i c => M.fitTransform J iJ dJ X Y m Z i (e c)

/-- Modelled from the spec: the piecewise alignment orchestrator (section 4.4,
`fmralign/pairwise_alignment.py`, absent from the sources).  Given a region
labeling of the features it fits one alignment method object per region on the
column subsets of X and Y belonging to that region, transforms the matching
columns of new data, and writes each region output back to the original column
positions. -/
def piecewise_fit_transform {ns : ℕ} (M : AlignMethod ns) {p np : ℕ}
    (label : Fin p → Fin np) (X Y : Matrix (Fin ns) (Fin p) ℚ) (m : ℕ)
    (Z : Matrix (Fin m) (Fin p) ℚ) : Matrix (Fin m) (Fin p) ℚ :=
  fun i j =>
    M.fitTransform {j2 : Fin p // label j2 = label j} inferInstance
      inferInstance (X.submatrix id Subtype.val) (Y.submatrix id Subtype.val)
      m (Z.submatrix id Subtype.val) i ⟨j, rfl⟩

/-- The identity alignment method in orchestrator form, used to instantiate
the degenerate-partition equivalence on a concrete input. -/
def identityMethod (ns : ℕ) : AlignMethod ns :=
  ⟨fun _ _ _ _ _ _ Z => Z⟩

/-! Concrete data used to instantiate the theorems below on executable inputs:
decomposition fillers for arguments a branch never reads, and small rational
matrices whose decompositions are exact. -/

/-- Placeholder dual decomposition data for calls that take the primal or
degenerate branch and never read it. -/
def trivDual (n p k : ℕ) : DualSVD n p k :=
  ⟨0, fun _ => 0, 0, 0, fun _ => 0, 0, 0, fun _ => 0, 0⟩

/-- Placeholder primal decomposition data for calls that never read it. -/
def trivD (p : ℕ) : SVDData p p := ⟨0, fun _ => 0, 0⟩

/-- Instance input: the identity sample matrix on two features. -/
def cxX1 : Mat 2 2 := 1

/-- Instance input: the rotation of the plane by a quarter turn. -/
def cxY1 : Mat 2 2 := !![0, -1; 1, 0]

/-- A valid singular value decomposition of cxY1ᵀ * cxX1. -/
def cxD1 : SVDData 2 2 := ⟨cxY1ᵀ, fun _ => 1, 1⟩

/-- Instance input with one sample and two features. -/
def cxX2 : Mat 1 2 := !![1, 0]

/-- Instance target equal to cxX2. -/
def cxY2 : Mat 1 2 := !![1, 0]

/-- A valid full singular value decomposition of cxY2ᵀ * cxX2. -/
def cxD2 : SVDData 2 2 := ⟨1, ![1, 0], 1⟩

/-- Valid dual decomposition data for the pair cxX2, cxY2. -/
def cxDD2 : DualSVD 1 2 1 :=
  ⟨!![1], fun _ => 1, !![1; 0], !![1], fun _ => 1, !![1; 0],
    !![1], fun _ => 1, !![1]⟩

/-- Factor witnessing that the rows of cxX2 lie in the row space of
cxY2ᵀ * cxX2. -/
def cxW2 : Matrix (Fin 2) (Fin 1) ℚ := !![1; 0]

/-- A rational rotation of the plane (the 3-4-5 rotation, determinant one). -/
def cxR0 : Mat 2 2 := !![3/5, -4/5; 4/5, 3/5]

/-- A valid singular value decomposition of cxR0 * (1 * 1ᵀ) = cxR0. -/
def wD3 : SVDData 2 2 := ⟨cxR0, fun _ => 1, 1⟩

/-- One-by-one instance input. -/
def wX1 : Mat 1 1 := 1

/-- One-by-one instance target. -/
def wY1 : Mat 1 1 := 1

/-- A valid singular value decomposition of wY1ᵀ * wX1 = 1. -/
def wD1 : SVDData 1 1 := ⟨1, fun _ => 1, 1⟩

/-- Valid dual decomposition data for the pair wX1, wY1. -/
def wDD1 : DualSVD 1 1 1 :=
  ⟨1, fun _ => 1, 1, 1, fun _ => 1, 1, 1, fun _ => 1, 1⟩

/-- One-by-one instance input for the scalar-multiple analysis. -/
def cxX6 : Mat 1 1 := 1

/-- A valid singular value decomposition of ((-1) • cxX6)ᵀ * cxX6. -/
def cxD6 : SVDData 1 1 := ⟨!![-1], fun _ => 1, 1⟩

/-- A valid singular value decomposition of ((2:ℚ) • cxX6)ᵀ * cxX6. -/
def wD6 : SVDData 1 1 := ⟨1, fun _ => 2, 1⟩

/-- Instance fitting input for the orchestrator equivalence. -/
def wX8 : Matrix (Fin 1) (Fin 2) ℚ := !![1, 2]

/-- Instance fitting target for the orchestrator equivalence. -/
def wY8 : Matrix (Fin 1) (Fin 2) ℚ := !![3, 4]

/-- Instance new data for the orchestrator equivalence. -/
def wZ8 : Matrix (Fin 1) (Fin 2) ℚ := !![5, 6]

/-! Basic facts about the Frobenius norm, the trace and orthogonal matrices. -/

theorem frobSq_nonneg {n p : ℕ} (M : Mat n p) : 0 ≤ frobSq M :=
  Finset.sum_nonneg fun _ _ => Finset.sum_nonneg fun _ _ => sq_nonneg _

theorem frobSq_eq_zero_iff {n p : ℕ} {M : Mat n p} : frobSq M = 0 ↔ M = 0 := by
  constructor
  · intro h
    ext i j
    have h1 : ∀ i2 ∈ Finset.univ, (0:ℚ) ≤ ∑ j2, (M i2 j2) ^ 2 := fun i2 _ =>
      Finset.sum_nonneg fun _ _ => sq_nonneg _
    have h2 := (Finset.sum_eq_zero_iff_of_nonneg h1).mp h i (Finset.mem_univ i)
    have h3 : ∀ j2 ∈ Finset.univ, (0:ℚ) ≤ (M i j2) ^ 2 := fun _ _ => sq_nonneg _
    have h4 := (Finset.sum_eq_zero_iff_of_nonneg h3).mp h2 j (Finset.mem_univ j)
    have h5 : M i j = 0 := by
      have := sq_eq_zero_iff.mp h4
      simpa using this
    simpa using h5
  · intro h
    subst h
    simp [frobSq]

theorem trace_transpose_mul_self {n p : ℕ} (M : Mat n p) :
    trace (Mᵀ * M) = frobSq M := by
  unfold frobSq
  rw [Finset.sum_comm]
  apply Finset.sum_congr rfl
  intro j _
  simp [Matrix.mul_apply, Matrix.diag, trace, sq]

theorem frobInner_eq_trace {n p : ℕ} (M N : Mat n p) :
    frobInner M N = trace (Mᵀ * N) := by
  unfold frobInner
  rw [Finset.sum_comm]
  apply Finset.sum_congr rfl
  intro j _
  simp [Matrix.mul_apply, Matrix.diag, trace]

theorem frobSq_sub {n p : ℕ} (M N : Mat n p) :
    frobSq (M - N) = frobSq M - 2 * frobInner M N + frobSq N := by
  unfold frobSq frobInner
  rw [Finset.mul_sum, ← Finset.sum_sub_distrib, ← Finset.sum_add_distrib]
  apply Finset.sum_congr rfl
  intro i _
  rw [Finset.mul_sum, ← Finset.sum_sub_distrib, ← Finset.sum_add_distrib]
  apply Finset.sum_congr rfl
  intro j _
  simp only [Matrix.sub_apply]
  ring

theorem frobSq_smul {n p : ℕ} (t : ℚ) (M : Mat n p) :
    frobSq (t • M) = t ^ 2 * frobSq M := by
  unfold frobSq
  rw [Finset.mul_sum]
  apply Finset.sum_congr rfl
  intro i _
  rw [Finset.mul_sum]
  apply Finset.sum_congr rfl
  intro j _
  simp only [Matrix.smul_apply, smul_eq_mul]
  ring

theorem frobInner_smul_left {n p : ℕ} (t : ℚ) (M N : Mat n p) :
    frobInner (t • M) N = t * frobInner M N := by
  unfold frobInner
  rw [Finset.mul_sum]
  apply Finset.sum_congr rfl
  intro i _
  rw [Finset.mul_sum]
  apply Finset.sum_congr rfl
  intro j _
  simp only [Matrix.smul_apply, smul_eq_mul]
  ring

theorem frobSq_transpose {n p : ℕ} (M : Mat n p) : frobSq Mᵀ = frobSq M := by
  unfold frobSq
  rw [Finset.sum_comm]
  apply Finset.sum_congr rfl
  intro i _
  simp [Matrix.transpose_apply]

theorem orthogonalM_of_left {p : ℕ} {Q : Mat p p} (h : Qᵀ * Q = 1) :
    orthogonalM Q :=
  ⟨h, Matrix.mul_eq_one_comm.mp h⟩

theorem frobSq_mul_orth {n p : ℕ} (M : Mat n p) {Q : Mat p p}
    (hQ : orthogonalM Q) : frobSq (M * Q) = frobSq M := by
  rw [← trace_transpose_mul_self, ← trace_transpose_mul_self M]
  have h1 : (M * Q)ᵀ * (M * Q) = Qᵀ * (Mᵀ * M) * Q := by
    rw [Matrix.transpose_mul, Matrix.mul_assoc, ← Matrix.mul_assoc Mᵀ M Q,
      ← Matrix.mul_assoc]
  rw [h1, Matrix.trace_mul_cycle, ← Matrix.mul_assoc, hQ.2, Matrix.one_mul]

theorem orth_diag_entry_le_one {p : ℕ} {W : Mat p p} (hW : Wᵀ * W = 1)
    (i : Fin p) : W i i ≤ 1 := by
  have hcol : ∑ j, W j i * W j i = 1 := by
    have h := congrArg (fun A => A i i) hW
    simpa [Matrix.mul_apply, Matrix.one_apply, Matrix.transpose_apply] using h
  have hsq : W i i * W i i ≤ 1 := by
    calc W i i * W i i ≤ ∑ j, W j i * W j i :=
          Finset.single_le_sum (f := fun j => W j i * W j i)
            (fun j _ => mul_self_nonneg _) (Finset.mem_univ i)
      _ = 1 := hcol
  nlinarith [hsq]

theorem trace_mul_diag_le {p : ℕ} {W : Mat p p} (hW : Wᵀ * W = 1)
    {S : Fin p → ℚ} (hS : ∀ i, 0 ≤ S i) :
    trace (W * diagonal S) ≤ ∑ i, S i := by
  have h1 : trace (W * diagonal S) = ∑ i, W i i * S i := by
    apply Finset.sum_congr rfl
    intro i _
    simp [Matrix.mul_diagonal, Matrix.diag, trace]
  rw [h1]
  apply Finset.sum_le_sum
  intro i _
  exact mul_le_of_le_one_left (hS i) (orth_diag_entry_le_one hW i)

/-! Positive semidefinite matrices over ℚ and uniqueness of the positive
semidefinite square root, the engine behind every polar-factor argument. -/

theorem psd_add {p : ℕ} {B C : Mat p p} (hB : PSD B) (hC : PSD C) :
    PSD (B + C) := by
  refine ⟨by rw [Matrix.transpose_add, hB.1, hC.1], fun z => ?_⟩
  rw [Matrix.add_mulVec, dotProduct_add]
  exact add_nonneg (hB.2 z) (hC.2 z)

theorem psd_diag_conj {p k : ℕ} (V : Matrix (Fin p) (Fin k) ℚ) (S : Fin k → ℚ)
    (hS : ∀ i, 0 ≤ S i) : PSD (V * diagonal S * Vᵀ) := by
  constructor
  · rw [Matrix.transpose_mul, Matrix.transpose_mul, Matrix.transpose_transpose,
      Matrix.diagonal_transpose, Matrix.mul_assoc]
  · intro z
    have e1 : (V * diagonal S * Vᵀ).mulVec z =
        V.mulVec ((diagonal S).mulVec (Vᵀ.mulVec z)) := by
      rw [Matrix.mulVec_mulVec, Matrix.mulVec_mulVec]
    have e2 : dotProduct z (V.mulVec ((diagonal S).mulVec (Vᵀ.mulVec z))) =
        dotProduct (Vᵀ.mulVec z) ((diagonal S).mulVec (Vᵀ.mulVec z)) := by
      rw [Matrix.dotProduct_mulVec, ← Matrix.mulVec_transpose]
    rw [e1, e2]
    apply Finset.sum_nonneg
    intro i _
    rw [Matrix.mulVec_diagonal]
    have := hS i
    nlinarith [mul_self_nonneg (Vᵀ.mulVec z i)]

theorem psd_smul {p : ℕ} {B : Mat p p} (hB : PSD B) {c : ℚ} (hc : 0 ≤ c) :
    PSD (c • B) := by
  refine ⟨by rw [Matrix.transpose_smul, hB.1], fun z => ?_⟩
  rw [Matrix.smul_mulVec_assoc, dotProduct_smul, smul_eq_mul]
  exact mul_nonneg hc (hB.2 z)

theorem psd_mulVec_eq_zero {p : ℕ} {B : Mat p p} (hB : PSD B) {z : Fin p → ℚ}
    (hz : dotProduct z (B.mulVec z) = 0) : B.mulVec z = 0 := by
  have hsym : ∀ w : Fin p → ℚ,
      dotProduct z (B.mulVec w) = dotProduct w (B.mulVec z) := by
    intro w
    rw [Matrix.dotProduct_mulVec, ← Matrix.mulVec_transpose, hB.1,
      dotProduct_comm]
  have key : ∀ w : Fin p → ℚ, dotProduct w (B.mulVec z) = 0 := by
    intro w
    set c := dotProduct w (B.mulVec z) with hc
    set d := dotProduct w (B.mulVec w) with hd
    have hd0 : 0 ≤ d := hB.2 w
    have quad : ∀ t : ℚ, 0 ≤ 2 * t * c + t ^ 2 * d := by
      intro t
      have h0 := hB.2 (z + t • w)
      have e1 : B.mulVec (z + t • w) = B.mulVec z + t • B.mulVec w := by
        rw [Matrix.mulVec_add, Matrix.mulVec_smul]
      rw [e1, dotProduct_add, add_dotProduct, add_dotProduct, hz,
        dotProduct_smul, smul_dotProduct, smul_dotProduct, dotProduct_smul,
        hsym w] at h0
      simp only [smul_eq_mul] at h0
      nlinarith [h0]
    rcases eq_or_lt_of_le hd0 with hdeq | hdpos
    · have h1 := quad 1
      have h2 := quad (-1)
      rw [← hdeq] at h1 h2
      nlinarith [h1, h2]
    · have h6 := quad (-c / d)
      have hdne : d ≠ 0 := ne_of_gt hdpos
      have h7 : 2 * (-c / d) * c + (-c / d) ^ 2 * d = -(c ^ 2) / d := by
        field_simp
        ring
      rw [h7] at h6
      have h8 : c ^ 2 ≤ 0 := by
        have h9 : -(c ^ 2) / d * d = -(c ^ 2) := by field_simp
        nlinarith [mul_nonneg h6 (le_of_lt hdpos)]
      have h10 : c ^ 2 = 0 := le_antisymm h8 (sq_nonneg c)
      exact sq_eq_zero_iff.mp h10
  have h11 := key (B.mulVec z)
  exact dotProduct_self_eq_zero.mp h11

theorem conj_diag_entry {p q : ℕ} (B : Mat p p) (M : Matrix (Fin p) (Fin q) ℚ)
    (j : Fin q) :
    (Mᵀ * B * M) j j =
      dotProduct (fun i => M i j) (B.mulVec fun i => M i j) := by
  simp only [Matrix.mul_apply, Matrix.mulVec, dotProduct,
    Matrix.transpose_apply, Finset.sum_mul, Finset.mul_sum]
  rw [Finset.sum_comm]
  apply Finset.sum_congr rfl
  intro a _
  apply Finset.sum_congr rfl
  intro b _
  ring

theorem trace_conj_nonneg {p q : ℕ} {B : Mat p p} (hB : PSD B)
    (M : Matrix (Fin p) (Fin q) ℚ) : 0 ≤ trace (Mᵀ * B * M) := by
  apply Finset.sum_nonneg
  intro j _
  rw [Matrix.diag_apply, conj_diag_entry]
  exact hB.2 _

theorem conj_eq_zero_of_trace {p q : ℕ} {B : Mat p p} (hB : PSD B)
    {M : Matrix (Fin p) (Fin q) ℚ} (h : trace (Mᵀ * B * M) = 0) :
    B * M = 0 := by
  have hnn : ∀ j ∈ Finset.univ, (0:ℚ) ≤ (Mᵀ * B * M).diag j := by
    intro j _
    rw [Matrix.diag_apply, conj_diag_entry]
    exact hB.2 _
  have hterm := (Finset.sum_eq_zero_iff_of_nonneg hnn).mp h
  ext i j
  have h1 : dotProduct (fun i2 => M i2 j) (B.mulVec fun i2 => M i2 j) = 0 := by
    have := hterm j (Finset.mem_univ j)
    rw [Matrix.diag_apply, conj_diag_entry] at this
    exact this
  have h2 := psd_mulVec_eq_zero hB h1
  have h3 := congrFun h2 i
  simpa [Matrix.mul_apply, Matrix.mulVec, dotProduct] using h3

theorem eq_zero_of_mul_self_transpose {n p : ℕ} {M : Mat n p}
    (h : M * Mᵀ = 0) : M = 0 := by
  have h2 : trace (Mᵀ * M) = 0 := by
    rw [Matrix.trace_mul_comm, h]
    simp
  rw [trace_transpose_mul_self] at h2
  exact frobSq_eq_zero_iff.mp h2

theorem psd_sq_injective {p : ℕ} {B C : Mat p p} (hB : PSD B) (hC : PSD C)
    (h : B * B = C * C) : B = C := by
  have hEsym : (B - C)ᵀ = B - C := by
    rw [Matrix.transpose_sub, hB.1, hC.1]
  have expand : (B - C) * (B - C) * (B + C) =
      B*B*B + B*B*C - B*(C*B) - B*(C*C) - C*(B*B) - C*(B*C) + C*(C*B)
        + C*(C*C) := by
    noncomm_ring
  have key : trace ((B - C)ᵀ * (B + C) * (B - C)) = 0 := by
    rw [hEsym, Matrix.trace_mul_cycle (B - C) (B + C) (B - C), expand, ← h]
    simp only [Matrix.trace_add, Matrix.trace_sub]
    have c1 : trace (B*(C*B)) = trace (B*B*C) := by
      rw [Matrix.trace_mul_cycle', Matrix.mul_assoc]
    have c2 : trace (C*(B*C)) = trace (C*(C*B)) := by
      rw [Matrix.trace_mul_cycle']
    have c3 : trace (B*(B*B)) = trace (B*B*B) := by rw [Matrix.mul_assoc]
    rw [c1, c2, c3]
    ring
  have hBC : PSD (B + C) := psd_add hB hC
  have h0 : (B + C) * (B - C) = 0 := conj_eq_zero_of_trace hBC key
  have key2 : trace ((B - C)ᵀ * B * (B - C)) +
      trace ((B - C)ᵀ * C * (B - C)) = 0 := by
    have e3 : (B - C)ᵀ * B * (B - C) + (B - C)ᵀ * C * (B - C) =
        (B - C)ᵀ * ((B + C) * (B - C)) := by
      noncomm_ring
    rw [← Matrix.trace_add, e3, h0, Matrix.mul_zero, Matrix.trace_zero]
  have hB0 : trace ((B - C)ᵀ * B * (B - C)) = 0 :=
    le_antisymm (by linarith [trace_conj_nonneg hC (B - C)])
      (trace_conj_nonneg hB (B - C))
  have hC0 : trace ((B - C)ᵀ * C * (B - C)) = 0 := by
    linarith [trace_conj_nonneg hB (B - C)]
  have hBE : B * (B - C) = 0 := conj_eq_zero_of_trace hB hB0
  have hCE : C * (B - C) = 0 := conj_eq_zero_of_trace hC hC0
  have hEE : (B - C) * (B - C) = 0 := by
    have e4 : (B - C) * (B - C) = B * (B - C) - C * (B - C) := by
      noncomm_ring
    rw [e4, hBE, hCE, sub_zero]
  have hE0 : B - C = 0 := by
    apply eq_zero_of_mul_self_transpose
    rw [hEsym, hEE]
  exact sub_eq_zero.mp hE0

/-! Consequences of a valid singular value decomposition: square-root
identities, polar-factor uniqueness, and the trace bound behind optimality. -/

theorem sandwich {p k : ℕ} (V1 : Matrix (Fin p) (Fin k) ℚ) (D1 : Mat k k)
    (W : Matrix (Fin p) (Fin k) ℚ) (hW : Wᵀ * W = 1) (D2 : Mat k k)
    (V2 : Matrix (Fin p) (Fin k) ℚ) :
    (V1 * D1 * Wᵀ) * (W * D2 * V2ᵀ) = V1 * (D1 * D2) * V2ᵀ := by
  simp only [Matrix.mul_assoc]
  rw [← Matrix.mul_assoc Wᵀ W (D2 * V2ᵀ), hW, Matrix.one_mul]

theorem usv_transpose {m p k : ℕ} (U : Matrix (Fin m) (Fin k) ℚ)
    (S : Fin k → ℚ) (V : Matrix (Fin p) (Fin k) ℚ) :
    (U * diagonal S * Vᵀ)ᵀ = V * diagonal S * Uᵀ := by
  rw [Matrix.transpose_mul, Matrix.transpose_mul, Matrix.transpose_transpose,
    Matrix.diagonal_transpose, Matrix.mul_assoc]

theorem svd_right_sqrt_sq {p k : ℕ} {A : Mat p p}
    {U V : Matrix (Fin p) (Fin k) ℚ} {S : Fin k → ℚ}
    (hU : Uᵀ * U = 1) (hV : Vᵀ * V = 1) (hA : A = U * diagonal S * Vᵀ) :
    (V * diagonal S * Vᵀ) * (V * diagonal S * Vᵀ) = Aᵀ * A := by
  rw [hA, usv_transpose, sandwich V (diagonal S) U hU (diagonal S) V,
    sandwich V (diagonal S) V hV (diagonal S) V]

theorem svd_left_sqrt_sq {p k : ℕ} {A : Mat p p}
    {U V : Matrix (Fin p) (Fin k) ℚ} {S : Fin k → ℚ}
    (hU : Uᵀ * U = 1) (hV : Vᵀ * V = 1) (hA : A = U * diagonal S * Vᵀ) :
    (U * diagonal S * Uᵀ) * (U * diagonal S * Uᵀ) = A * Aᵀ := by
  rw [hA, usv_transpose, sandwich U (diagonal S) V hV (diagonal S) U,
    sandwich U (diagonal S) U hU (diagonal S) U]

theorem svd_polar_mul_sqrt {p k : ℕ} {A : Mat p p}
    {U V : Matrix (Fin p) (Fin k) ℚ} {S : Fin k → ℚ}
    (hV : Vᵀ * V = 1) (hA : A = U * diagonal S * Vᵀ) :
    (U * Vᵀ) * (V * diagonal S * Vᵀ) = A := by
  have e := sandwich U 1 V hV (diagonal S) V
  rw [Matrix.mul_one, Matrix.one_mul] at e
  rw [e, ← hA]

theorem svd_polar_mul_At {p k : ℕ} {A : Mat p p}
    {U V : Matrix (Fin p) (Fin k) ℚ} {S : Fin k → ℚ}
    (hV : Vᵀ * V = 1) (hA : A = U * diagonal S * Vᵀ) :
    (U * Vᵀ) * Aᵀ = U * diagonal S * Uᵀ := by
  have e := sandwich U 1 V hV (diagonal S) U
  rw [Matrix.mul_one, Matrix.one_mul] at e
  rw [hA, usv_transpose, e]

theorem svd_S_zero_of_A_zero {p k : ℕ} {U V : Matrix (Fin p) (Fin k) ℚ}
    {S : Fin k → ℚ} (hU : Uᵀ * U = 1) (hV : Vᵀ * V = 1)
    (hA : (0 : Mat p p) = U * diagonal S * Vᵀ) : ∀ i, S i = 0 := by
  have e1 : Uᵀ * (U * diagonal S * Vᵀ) * V = diagonal S := by
    simp only [Matrix.mul_assoc]
    rw [hV, Matrix.mul_one, ← Matrix.mul_assoc, hU, Matrix.one_mul]
  have e2 : diagonal S = (0 : Mat k k) := by
    rw [← e1, ← hA, Matrix.mul_zero, Matrix.zero_mul]
  intro i
  have := congrArg (fun M => M i i) e2
  simpa using this

theorem trace_conj_orthonormal {p k : ℕ} {V : Matrix (Fin p) (Fin k) ℚ}
    (hV : Vᵀ * V = 1) (S : Fin k → ℚ) :
    trace (V * diagonal S * Vᵀ) = ∑ i, S i := by
  rw [Matrix.trace_mul_comm, ← Matrix.mul_assoc, hV, Matrix.one_mul,
    Matrix.trace_diagonal]

theorem polar_unique_action {p k1 k2 : ℕ} {A : Mat p p}
    {U1 V1 : Matrix (Fin p) (Fin k1) ℚ} {S1 : Fin k1 → ℚ}
    {U2 V2 : Matrix (Fin p) (Fin k2) ℚ} {S2 : Fin k2 → ℚ}
    (hU1 : U1ᵀ * U1 = 1) (hV1 : V1ᵀ * V1 = 1) (hS1 : ∀ i, 0 ≤ S1 i)
    (hA1 : A = U1 * diagonal S1 * V1ᵀ)
    (hU2 : U2ᵀ * U2 = 1) (hV2 : V2ᵀ * V2 = 1) (hS2 : ∀ i, 0 ≤ S2 i)
    (hA2 : A = U2 * diagonal S2 * V2ᵀ) :
    (U1 * V1ᵀ) * Aᵀ = (U2 * V2ᵀ) * Aᵀ := by
  rw [svd_polar_mul_At hV1 hA1, svd_polar_mul_At hV2 hA2]
  exact psd_sq_injective (psd_diag_conj U1 S1 hS1) (psd_diag_conj U2 S2 hS2)
    (by rw [svd_left_sqrt_sq hU1 hV1 hA1, svd_left_sqrt_sq hU2 hV2 hA2])

theorem polar_unique {p k1 k2 : ℕ} {A : Mat p p}
    {U1 V1 : Matrix (Fin p) (Fin k1) ℚ} {S1 : Fin k1 → ℚ}
    {U2 V2 : Matrix (Fin p) (Fin k2) ℚ} {S2 : Fin k2 → ℚ}
    (hU1 : U1ᵀ * U1 = 1) (hV1 : V1ᵀ * V1 = 1) (hS1 : ∀ i, 0 ≤ S1 i)
    (hA1 : A = U1 * diagonal S1 * V1ᵀ)
    (hU2 : U2ᵀ * U2 = 1) (hV2 : V2ᵀ * V2 = 1) (hS2 : ∀ i, 0 ≤ S2 i)
    (hA2 : A = U2 * diagonal S2 * V2ᵀ)
    (hdet : IsUnit A.det) : U1 * V1ᵀ = U2 * V2ᵀ := by
  have hP : V1 * diagonal S1 * V1ᵀ = V2 * diagonal S2 * V2ᵀ :=
    psd_sq_injective (psd_diag_conj V1 S1 hS1) (psd_diag_conj V2 S2 hS2)
      (by rw [svd_right_sqrt_sq hU1 hV1 hA1, svd_right_sqrt_sq hU2 hV2 hA2])
  have hPdet : IsUnit (V1 * diagonal S1 * V1ᵀ).det := by
    have e1 : (V1 * diagonal S1 * V1ᵀ).det * (V1 * diagonal S1 * V1ᵀ).det =
        A.det * A.det := by
      rw [← Matrix.det_mul, svd_right_sqrt_sq hU1 hV1 hA1, Matrix.det_mul,
        Matrix.det_transpose]
    have : IsUnit ((V1 * diagonal S1 * V1ᵀ).det *
        (V1 * diagonal S1 * V1ᵀ).det) := by
      rw [e1]
      exact hdet.mul hdet
    exact isUnit_of_mul_isUnit_left this
  have e2 : (U1 * V1ᵀ) * (V1 * diagonal S1 * V1ᵀ) =
      (U2 * V2ᵀ) * (V1 * diagonal S1 * V1ᵀ) := by
    rw [svd_polar_mul_sqrt hV1 hA1]
    conv_rhs => rw [hP]
    rw [svd_polar_mul_sqrt hV2 hA2]
  calc U1 * V1ᵀ
      = (U1 * V1ᵀ) * (V1 * diagonal S1 * V1ᵀ) *
          (V1 * diagonal S1 * V1ᵀ)⁻¹ := by
        rw [Matrix.mul_assoc, Matrix.mul_nonsing_inv _ hPdet, Matrix.mul_one]
    _ = (U2 * V2ᵀ) * (V1 * diagonal S1 * V1ᵀ) *
          (V1 * diagonal S1 * V1ᵀ)⁻¹ := by rw [e2]
    _ = U2 * V2ᵀ := by
        rw [Matrix.mul_assoc, Matrix.mul_nonsing_inv _ hPdet, Matrix.mul_one]

theorem polar_eq_of_orth_psd {p k : ℕ} {A Q P : Mat p p}
    {U V : Matrix (Fin p) (Fin k) ℚ} {S : Fin k → ℚ}
    (hQ : orthogonalM Q) (hP : PSD P) (hAQP : A = Q * P)
    (hU : Uᵀ * U = 1) (hV : Vᵀ * V = 1) (hS : ∀ i, 0 ≤ S i)
    (hA : A = U * diagonal S * Vᵀ) (hdet : IsUnit A.det) :
    U * Vᵀ = Q ∧ V * diagonal S * Vᵀ = P := by
  have hAtA : Aᵀ * A = P * P := by
    rw [hAQP, Matrix.transpose_mul, hP.1]
    simp only [Matrix.mul_assoc]
    rw [← Matrix.mul_assoc Qᵀ Q P, hQ.1, Matrix.one_mul]
  have hBP : V * diagonal S * Vᵀ = P :=
    psd_sq_injective (psd_diag_conj V S hS) hP
      (by rw [svd_right_sqrt_sq hU hV hA, hAtA])
  have hPdet : IsUnit P.det := by
    have e1 : P.det * P.det = A.det * A.det := by
      rw [← Matrix.det_mul, ← hAtA, Matrix.det_mul, Matrix.det_transpose]
    have : IsUnit (P.det * P.det) := by
      rw [e1]
      exact hdet.mul hdet
    exact isUnit_of_mul_isUnit_left this
  have e2 : (U * Vᵀ) * P = Q * P := by
    rw [← hBP, svd_polar_mul_sqrt hV hA, hBP, ← hAQP]
  have e3 := congrArg (fun M => M * P⁻¹) e2
  refine ⟨?_, hBP⟩
  simpa [Matrix.mul_assoc, Matrix.mul_nonsing_inv _ hPdet] using e3

theorem polar_action_of_orth_gram {q m k : ℕ} {Q : Mat q q}
    (X0 : Matrix (Fin q) (Fin m) ℚ) {U V : Matrix (Fin q) (Fin k) ℚ}
    {S : Fin k → ℚ} (hQ : orthogonalM Q)
    (hU : Uᵀ * U = 1) (hV : Vᵀ * V = 1) (hS : ∀ i, 0 ≤ S i)
    (hA : Q * (X0 * X0ᵀ) = U * diagonal S * Vᵀ) :
    (U * Vᵀ) * X0 = Q * X0 := by
  have hPpsd : PSD (X0 * X0ᵀ) := by
    have h1 := psd_diag_conj X0 (fun _ => (1:ℚ)) (fun _ => zero_le_one)
    rwa [Matrix.diagonal_one, Matrix.mul_one] at h1
  have hAtA : (Q * (X0 * X0ᵀ))ᵀ * (Q * (X0 * X0ᵀ)) =
      (X0 * X0ᵀ) * (X0 * X0ᵀ) := by
    rw [Matrix.transpose_mul, hPpsd.1]
    simp only [Matrix.mul_assoc]
    rw [← Matrix.mul_assoc Qᵀ Q, hQ.1, Matrix.one_mul]
  have hBP : V * diagonal S * Vᵀ = X0 * X0ᵀ :=
    psd_sq_injective (psd_diag_conj V S hS) hPpsd
      (by rw [svd_right_sqrt_sq hU hV hA, hAtA])
  have e2 : (U * Vᵀ) * (X0 * X0ᵀ) = Q * (X0 * X0ᵀ) := by
    rw [← hBP, svd_polar_mul_sqrt hV hA, hBP]
  have hdiff : ((U * Vᵀ) - Q) * (X0 * X0ᵀ) = 0 := by
    rw [Matrix.sub_mul, e2, sub_self]
  have hNN : (((U * Vᵀ) - Q) * X0) * (((U * Vᵀ) - Q) * X0)ᵀ = 0 := by
    have e4 : (((U * Vᵀ) - Q) * X0) * (((U * Vᵀ) - Q) * X0)ᵀ =
        (((U * Vᵀ) - Q) * (X0 * X0ᵀ)) * ((U * Vᵀ) - Q)ᵀ := by
      rw [Matrix.transpose_mul]
      simp only [Matrix.mul_assoc]
    rw [e4, hdiff, Matrix.zero_mul]
  have hN := eq_zero_of_mul_self_transpose hNN
  have := sub_eq_zero.mp (by rwa [Matrix.sub_mul] at hN)
  exact this

theorem trace_polar_eq {p : ℕ} {A U V : Mat p p} {S : Fin p → ℚ}
    (hU : Uᵀ * U = 1) (hV : Vᵀ * V = 1) (hA : A = U * diagonal S * Vᵀ) :
    trace ((U * Vᵀ)ᵀ * A) = ∑ i, S i := by
  rw [Matrix.transpose_mul, Matrix.transpose_transpose, hA]
  have e := sandwich V 1 U hU (diagonal S) V
  rw [Matrix.mul_one, Matrix.one_mul] at e
  rw [e]
  exact trace_conj_orthonormal hV S

theorem trace_orth_mul_le {p : ℕ} {A U V : Mat p p} {S : Fin p → ℚ}
    (hU : Uᵀ * U = 1) (hV : Vᵀ * V = 1) (hS : ∀ i, 0 ≤ S i)
    (hA : A = U * diagonal S * Vᵀ) {Q : Mat p p} (hQ : orthogonalM Q) :
    trace (Qᵀ * A) ≤ ∑ i, S i := by
  have hVV : V * Vᵀ = 1 := Matrix.mul_eq_one_comm.mp hV
  have hW : (Vᵀ * Qᵀ * U)ᵀ * (Vᵀ * Qᵀ * U) = 1 := by
    have ht : (Vᵀ * Qᵀ * U)ᵀ = Uᵀ * Q * V := by
      rw [Matrix.transpose_mul, Matrix.transpose_mul,
        Matrix.transpose_transpose, Matrix.transpose_transpose,
        ← Matrix.mul_assoc]
    rw [ht]
    simp only [Matrix.mul_assoc]
    rw [← Matrix.mul_assoc V Vᵀ, hVV, Matrix.one_mul,
      ← Matrix.mul_assoc Q Qᵀ, hQ.2, Matrix.one_mul, hU]
  have e1 : trace (Qᵀ * A) = trace (Vᵀ * Qᵀ * U * diagonal S) := by
    rw [hA, Matrix.trace_mul_cycle']
    simp only [← Matrix.mul_assoc]
  rw [e1]
  exact trace_mul_diag_le hW hS

theorem frobSq_mul_sub_expand {n p : ℕ} (X Y : Mat n p) {Q : Mat p p}
    (hQ : orthogonalM Q) :
    frobSq (X * Q - Y) =
      frobSq X + frobSq Y - 2 * trace (Qᵀ * (Xᵀ * Y)) := by
  rw [frobSq_sub, frobSq_mul_orth X hQ, frobInner_eq_trace]
  have e1 : (X * Q)ᵀ * Y = Qᵀ * (Xᵀ * Y) := by
    rw [Matrix.transpose_mul, Matrix.mul_assoc]
  rw [e1]
  ring

theorem frobInner_mul_right {n p : ℕ} (X : Mat n p) (Q : Mat p p)
    (Y : Mat n p) : frobInner (X * Q) Y = trace (Qᵀ * (Xᵀ * Y)) := by
  rw [frobInner_eq_trace, Matrix.transpose_mul, Matrix.mul_assoc]

theorem frobSq_smul_sub_expand {n p : ℕ} (t : ℚ) (M Y : Mat n p) :
    frobSq (t • M - Y) =
      t ^ 2 * frobSq M - 2 * (t * frobInner M Y) + frobSq Y := by
  rw [frobSq_sub, frobSq_smul, frobInner_smul_left]

theorem quadratic_min {a b c : ℚ} (ha : 0 ≤ a) (hzero : a = 0 → b = 0)
    (t : ℚ) :
    (b / a) ^ 2 * a - 2 * (b / a * b) + c ≤ t ^ 2 * a - 2 * (t * b) + c := by
  rcases eq_or_lt_of_le ha with h0 | hpos
  · have hb := hzero h0.symm
    rw [← h0, hb]
    simp
  · have hane : a ≠ 0 := ne_of_gt hpos
    have key : t ^ 2 * a - 2 * (t * b) + c -
        ((b / a) ^ 2 * a - 2 * (b / a * b) + c) = a * (t - b / a) ^ 2 := by
      field_simp
      ring
    nlinarith [sq_nonneg (t - b / a), mul_nonneg (le_of_lt hpos)
      (sq_nonneg (t - b / a))]

/-! Branch evaluations of the modelled solver and structure of the dual
formulation. -/

theorem scaled_procrustes_primal_eval {n p k : ℕ} (X Y : Mat n p)
    (d : SVDData p p) (dd : DualSVD n p k) (scaling : Bool) (hY : Y ≠ 0) :
    scaled_procrustes X Y d dd scaling (some true) =
      (RMat.dense (d.U * d.Vᵀ),
        if scaling then (∑ i, d.S i) / frobSq X else 1) := by
  simp [scaled_procrustes, hY]

theorem scaled_procrustes_dual_eval {n p k : ℕ} (X Y : Mat n p)
    (d : SVDData p p) (dd : DualSVD n p k) (scaling : Bool) (hY : Y ≠ 0) :
    scaled_procrustes X Y d dd scaling (some false) =
      (RMat.dense (dd.Vy * dd.Uc * dd.Vcᵀ * dd.Vxᵀ),
        if scaling then (∑ i, dd.Sc i) / frobSq X else 1) := by
  simp [scaled_procrustes, hY]

theorem scaled_procrustes_none_primal {n p k : ℕ} (X Y : Mat n p)
    (d : SVDData p p) (dd : DualSVD n p k) (scaling : Bool) (hY : Y ≠ 0)
    (hpn : p ≤ n) :
    scaled_procrustes X Y d dd scaling none =
      scaled_procrustes X Y d dd scaling (some true) := by
  simp [scaled_procrustes, hY, hpn]

theorem scaled_procrustes_none_dual {n p k : ℕ} (X Y : Mat n p)
    (d : SVDData p p) (dd : DualSVD n p k) (scaling : Bool) (hY : Y ≠ 0)
    (hnp : n < p) :
    scaled_procrustes X Y d dd scaling none =
      scaled_procrustes X Y d dd scaling (some false) := by
  simp [scaled_procrustes, hY, Nat.not_le.mpr hnp]

theorem ne_zero_of_entry {n p : ℕ} (M : Mat n p) (i : Fin n) (j : Fin p)
    (h : M i j ≠ 0) : M ≠ 0 := by
  intro h0
  apply h
  rw [h0]
  rfl

theorem orth_square_polar {p : ℕ} {U V : Mat p p} (hU : Uᵀ * U = 1)
    (hV : Vᵀ * V = 1) : orthogonalM (U * Vᵀ) := by
  apply orthogonalM_of_left
  have ht : (U * Vᵀ)ᵀ = V * Uᵀ := by
    rw [Matrix.transpose_mul, Matrix.transpose_transpose]
  rw [ht]
  have hVV := Matrix.mul_eq_one_comm.mp hV
  simp only [Matrix.mul_assoc]
  rw [← Matrix.mul_assoc Uᵀ U, hU, Matrix.one_mul, hVV]

theorem orthogonalM_transpose {p : ℕ} {Q : Mat p p} (hQ : orthogonalM Q) :
    orthogonalM Qᵀ := by
  refine ⟨?_, ?_⟩
  · rw [Matrix.transpose_transpose]
    exact hQ.2
  · rw [Matrix.transpose_transpose]
    exact hQ.1

theorem mul_orthonormal_cols {p k l : ℕ} {V : Matrix (Fin p) (Fin k) ℚ}
    {W : Matrix (Fin k) (Fin l) ℚ} (hV : Vᵀ * V = 1) (hW : Wᵀ * W = 1) :
    (V * W)ᵀ * (V * W) = 1 := by
  rw [Matrix.transpose_mul]
  simp only [Matrix.mul_assoc]
  rw [← Matrix.mul_assoc Vᵀ V, hV, Matrix.one_mul, hW]

theorem dual_reconstruction {n p k : ℕ} {X Y : Mat n p} {dd : DualSVD n p k}
    (h : dd.valid X Y) :
    Yᵀ * X = (dd.Vy * dd.Uc) * diagonal dd.Sc * (dd.Vx * dd.Vc)ᵀ := by
  obtain ⟨hUx, hVx, hSx, hX, hUy, hVy, hSy, hY, hUc, hVc, hSc, hAc⟩ := h
  rw [hY, hX, usv_transpose, Matrix.transpose_mul]
  have e3 := congrArg (fun M => dd.Vy * (M * dd.Vxᵀ)) hAc
  simp only [Matrix.mul_assoc] at e3 ⊢
  exact e3

theorem dual_output_eq {n p k : ℕ} (dd : DualSVD n p k) :
    dd.Vy * dd.Uc * dd.Vcᵀ * dd.Vxᵀ = (dd.Vy * dd.Uc) * (dd.Vx * dd.Vc)ᵀ := by
  rw [Matrix.transpose_mul]
  simp only [Matrix.mul_assoc]

theorem gram_psd {q m : ℕ} (X0 : Matrix (Fin q) (Fin m) ℚ) :
    PSD (X0 * X0ᵀ) := by
  have h1 := psd_diag_conj X0 (fun _ => (1:ℚ)) (fun _ => zero_le_one)
  rwa [Matrix.diagonal_one, Matrix.mul_one] at h1

theorem orth_det_isUnit {p : ℕ} {Q : Mat p p} (hQ : orthogonalM Q) :
    IsUnit Q.det := by
  have h1 : Q.det * Q.det = 1 := by
    have := congrArg Matrix.det hQ.1
    rwa [Matrix.det_mul, Matrix.det_transpose, Matrix.det_one] at this
  exact isUnit_of_mul_eq_one _ _ h1

/-! Facts about the concrete instance data, shared by the instance checks. -/

theorem wY1_ne : wY1 ≠ 0 :=
  ne_zero_of_entry wY1 0 0 (by norm_num [wY1, Matrix.one_apply])

theorem wD1_valid : SVDData.valid (wY1ᵀ * wX1) wD1 := by
  refine ⟨?_, ?_, ?_, ?_⟩
  · simp [wD1]
  · simp [wD1]
  · intro i
    norm_num [wD1]
  · simp [wD1, wX1, wY1, Matrix.diagonal_one]

theorem wDD1_valid : DualSVD.valid wX1 wY1 wDD1 := by
  refine ⟨?_, ?_, ?_, ?_, ?_, ?_, ?_, ?_, ?_, ?_, ?_, ?_⟩ <;>
    first
    | (intro i; norm_num [wDD1])
    | simp [wDD1, wX1, wY1, Matrix.diagonal_one]

theorem cxY2_ne : cxY2 ≠ 0 :=
  ne_zero_of_entry cxY2 0 0 (by norm_num [cxY2])

theorem cxD2_valid : SVDData.valid (cxY2ᵀ * cxX2) cxD2 := by
  refine ⟨?_, ?_, ?_, ?_⟩
  · simp [cxD2]
  · simp [cxD2]
  · intro i
    fin_cases i <;> norm_num [cxD2]
  · ext i j
    fin_cases i <;> fin_cases j <;>
      norm_num [cxD2, cxX2, cxY2, Matrix.mul_apply, Matrix.transpose_apply,
        Fin.sum_univ_one, Fin.sum_univ_two, Matrix.diagonal, Matrix.one_apply,
        Matrix.vecHead, Matrix.vecTail]

theorem cxDD2_valid : DualSVD.valid cxX2 cxY2 cxDD2 := by
  refine ⟨?_, ?_, ?_, ?_, ?_, ?_, ?_, ?_, ?_, ?_, ?_, ?_⟩ <;>
    first
    | (intro i; norm_num [cxDD2])
    | (ext i j
       fin_cases i <;> fin_cases j <;>
         norm_num [cxDD2, cxX2, cxY2, Matrix.mul_apply,
           Matrix.transpose_apply, Fin.sum_univ_one, Fin.sum_univ_two,
           Matrix.diagonal, Matrix.one_apply, Matrix.vecHead,
           Matrix.vecTail])

theorem cxR0_orth : orthogonalM cxR0 := by
  constructor <;>
    (ext i j
     fin_cases i <;> fin_cases j <;>
       norm_num [cxR0, Matrix.mul_apply, Matrix.transpose_apply,
         Fin.sum_univ_two, Matrix.one_apply, Matrix.vecHead, Matrix.vecTail])

theorem wD3_valid : SVDData.valid (cxR0 * ((1 : Mat 2 2) * (1 : Mat 2 2)ᵀ))
    wD3 := by
  refine ⟨?_, ?_, ?_, ?_⟩
  · show cxR0ᵀ * cxR0 = 1
    exact cxR0_orth.1
  · simp [wD3]
  · intro i
    norm_num [wD3]
  · show cxR0 * ((1 : Mat 2 2) * (1 : Mat 2 2)ᵀ) =
      cxR0 * diagonal (fun _ => (1:ℚ)) * (1 : Mat 2 2)ᵀ
    simp [Matrix.diagonal_one]

/-! Claim theorems. -/

/-- Claim C5: for every sample matrix X and the all-zero target matrix Y = 0,
scaled_procrustes returns the identity matrix (as the sparse identity object)
together with scale 1, for every option combination, instead of raising an
error. -/
theorem scaled_procrustes_null_target_identity {n p k : ℕ} (X : Mat n p)
    (d : SVDData p p) (dd : DualSVD n p k) (scaling : Bool)
    (primal : Option Bool) :
    scaled_procrustes X 0 d dd scaling primal = (RMat.sparse 1, 1) ∧
    (scaled_procrustes X 0 d dd scaling primal).1.toMatrix = 1 := by
  refine ⟨?_, ?_⟩ <;> simp [scaled_procrustes, RMat.toMatrix]

/-- Claim C7 (amended): every matrix returned by the primal formulation of
scaled_procrustes, and by the degenerate branch, is orthogonal: both products
with its transpose give the identity.  The claim as frozen fails for the dual
formulation taken by default when n < p, whose output has rank at most n; see
the counterexample. -/
theorem scaled_procrustes_primal_returns_orthogonal {n p k : ℕ}
    (X Y : Mat n p) (d : SVDData p p) (dd : DualSVD n p k) (scaling : Bool)
    (hd : d.valid (Yᵀ * X)) :
    orthogonalM
      ((scaled_procrustes X Y d dd scaling (some true)).1.toMatrix) := by
  by_cases hY : Y = 0
  · subst hY
    have h1 : (scaled_procrustes X 0 d dd scaling (some true)).1.toMatrix =
        1 := by
      simp [scaled_procrustes, RMat.toMatrix]
    rw [h1]
    constructor <;> simp
  · rw [scaled_procrustes_primal_eval X Y d dd scaling hY]
    exact orth_square_polar hd.1 hd.2.1

/-- Witness for claim C7: the hypotheses hold at the one-by-one instance and
the instantiated conclusion follows from the theorem. -/
theorem scaled_procrustes_primal_returns_orthogonal_witness :
    SVDData.valid (wY1ᵀ * wX1) wD1 ∧
    orthogonalM
      ((scaled_procrustes wX1 wY1 wD1 wDD1 false (some true)).1.toMatrix) :=
  ⟨wD1_valid,
    scaled_procrustes_primal_returns_orthogonal wX1 wY1 wD1 wDD1 false
      wD1_valid⟩

/-- Counterexample to claim C7 as frozen: on the equally-shaped inputs
cxX2 = cxY2 = [1 0] (one sample, two features) with valid decomposition data,
the default call takes the dual formulation (n < p) and returns a rank-one
matrix that is not orthogonal. -/
theorem scaled_procrustes_dual_not_orthogonal :
    DualSVD.valid cxX2 cxY2 cxDD2 ∧
    ¬ orthogonalM
      ((scaled_procrustes cxX2 cxY2 cxD2 cxDD2 false none).1.toMatrix) := by
  have hY : cxY2 ≠ 0 := ne_zero_of_entry cxY2 0 0 (by norm_num [cxY2])
  have hR : (scaled_procrustes cxX2 cxY2 cxD2 cxDD2 false none).1.toMatrix =
      !![(1:ℚ), 0; 0, 0] := by
    rw [scaled_procrustes_none_dual _ _ _ _ _ hY (by norm_num),
      scaled_procrustes_dual_eval _ _ _ _ _ hY]
    show cxDD2.Vy * cxDD2.Uc * cxDD2.Vcᵀ * cxDD2.Vxᵀ = !![(1:ℚ), 0; 0, 0]
    ext i j
    fin_cases i <;> fin_cases j <;>
      norm_num [cxDD2, Matrix.mul_apply, Matrix.transpose_apply,
        Fin.sum_univ_one, Matrix.vecHead, Matrix.vecTail]
  constructor
  · exact cxDD2_valid
  · intro horth
    have h1 := congrFun (congrFun horth.1 1) 1
    rw [hR] at h1
    norm_num [Matrix.mul_apply, Matrix.transpose_apply, Fin.sum_univ_two,
      Matrix.one_apply, Matrix.vecHead, Matrix.vecTail] at h1

/-- Claim C10: the type of the first returned value depends on the input: the
degenerate branch (Y = 0) returns a sparse object, every other input returns
a dense array. -/
theorem scaled_procrustes_return_kind :
    (∀ (n p k : ℕ) (X : Mat n p) (d : SVDData p p) (dd : DualSVD n p k)
      (scaling : Bool) (primal : Option Bool),
      (scaled_procrustes X 0 d dd scaling primal).1.isSparse = true) ∧
    (∀ (n p k : ℕ) (X Y : Mat n p) (d : SVDData p p) (dd : DualSVD n p k)
      (scaling : Bool) (primal : Option Bool), Y ≠ 0 →
      (scaled_procrustes X Y d dd scaling primal).1.isSparse = false) := by
  constructor
  · intro n p k X d dd scaling primal
    simp [scaled_procrustes, RMat.isSparse]
  · intro n p k X Y d dd scaling primal hY
    unfold scaled_procrustes
    rw [if_neg hY]
    by_cases hpr : Option.getD primal (decide (p ≤ n)) = true
    · rw [if_pos hpr]
      rfl
    · rw [if_neg hpr]
      rfl

/-- Witness for claim C10: both return kinds realised on concrete inputs. -/
theorem scaled_procrustes_return_kind_witness :
    (scaled_procrustes wX1 (0 : Mat 1 1) wD1 wDD1 false none).1.isSparse =
      true ∧
    (scaled_procrustes wX1 wY1 wD1 wDD1 false none).1.isSparse = false :=
  ⟨scaled_procrustes_return_kind.1 1 1 1 wX1 wD1 wDD1 false none,
    scaled_procrustes_return_kind.2 1 1 1 wX1 wY1 wD1 wDD1 false none
      (ne_zero_of_entry wY1 0 0 (by norm_num [wY1, Matrix.one_apply]))⟩

/-- Claim C9: for every alignment method object variant (identity,
permutation, scaled-orthogonal, optimal-transport, ridge), calling transform
on a freshly constructed object on which fit has never been called fails with
NotFittedError. -/
theorem transform_before_fit_not_fitted :
    (∀ (n p : ℕ) (Z : Mat n p),
      Identity.new.transform Z = Except.error AlignError.notFitted) ∧
    (∀ (p q : ℕ) (Z : Matrix (Fin p) (Fin q) ℚ),
      (Permutation.new p).transform Z = Except.error AlignError.notFitted) ∧
    (∀ (p q : ℕ) (scaling : Bool) (Z : Matrix (Fin p) (Fin q) ℚ),
      (ScaledOrthogonalAlignment.new p scaling).transform Z =
        Except.error AlignError.notFitted) ∧
    (∀ (p q : ℕ) (Z : Matrix (Fin p) (Fin q) ℚ),
      (OptimalTransportAlignment.new p).transform Z =
        Except.error AlignError.notFitted) ∧
    (∀ (p q : ℕ) (Z : Matrix (Fin p) (Fin q) ℚ),
      (RidgeAlignment.new p).transform Z =
        Except.error AlignError.notFitted) :=
  ⟨fun _ _ _ => rfl, fun _ _ _ => rfl, fun _ _ _ _ => rfl, fun _ _ _ => rfl,
    fun _ _ _ => rfl⟩

/-- Claim C8: for every natural alignment method, the piecewise orchestrator
run with the single-region labeling (n_pieces = 1) produces exactly the output
of fitting the method once on the full matrices and transforming with it. -/
theorem piecewise_single_region_equiv {ns p m : ℕ} (M : AlignMethod ns)
    (hM : M.Natural) (label : Fin p → Fin 1)
    (X Y : Matrix (Fin ns) (Fin p) ℚ) (Z : Matrix (Fin m) (Fin p) ℚ) :
    piecewise_fit_transform M label X Y m Z =
      M.fitTransform (Fin p) inferInstance inferInstance X Y m Z := by
  funext i j
  have hall : ∀ j2 : Fin p, label j2 = label j := fun j2 =>
    Subsingleton.elim _ _
  have he := hM (Fin p) {j2 : Fin p // label j2 = label j} inferInstance
    inferInstance inferInstance inferInstance (Equiv.subtypeUnivEquiv hall)
    X Y m Z
  exact congrFun (congrFun he i) ⟨j, rfl⟩

/-- Witness for claim C8: the identity method is natural and the equivalence
holds on a concrete two-feature instance. -/
theorem piecewise_single_region_equiv_witness :
    (identityMethod 1).Natural ∧
    piecewise_fit_transform (identityMethod 1) (fun _ => (0 : Fin 1)) wX8 wY8
        1 wZ8 =
      (identityMethod 1).fitTransform (Fin 2) inferInstance inferInstance wX8
        wY8 1 wZ8 :=
  ⟨fun _ _ _ _ _ _ _ _ _ _ _ => rfl,
    piecewise_single_region_equiv (identityMethod 1)
      (fun _ _ _ _ _ _ _ _ _ _ _ => rfl) (fun _ => 0) wX8 wY8 wZ8⟩

/-- Claim C1 (amended): for the primal formulation on a non-degenerate target,
scaled_procrustes returns an orthogonal matrix R whose transpose minimizes the
claimed reconstruction criterion ‖X·Q − Y‖² over orthogonal Q (equivalently, R
itself minimizes ‖X·Rᵀ − Y‖² = ‖R·Xᵀ − Yᵀ‖², the criterion the returned basis
realises; the claim's literal criterion is minimized by Rᵀ, not by R, see
the counterexample), and with scaling=True the returned scale minimizes
t ↦ ‖t·(X·Rᵀ) − Y‖². -/
theorem scaled_procrustes_primal_optimal {n p k : ℕ} (X Y : Mat n p)
    (d : SVDData p p) (dd : DualSVD n p k) (hY : Y ≠ 0)
    (hd : d.valid (Yᵀ * X)) :
    orthogonalM ((scaled_procrustes X Y d dd true (some true)).1.toMatrix) ∧
    (∀ Q : Mat p p, orthogonalM Q →
      frobSq (X * ((scaled_procrustes X Y d dd true (some true)).1.toMatrix)ᵀ
          - Y) ≤ frobSq (X * Q - Y)) ∧
    (∀ t : ℚ,
      frobSq ((scaled_procrustes X Y d dd true (some true)).2 •
            (X * ((scaled_procrustes X Y d dd true (some true)).1.toMatrix)ᵀ)
          - Y) ≤
        frobSq (t •
            (X * ((scaled_procrustes X Y d dd true (some true)).1.toMatrix)ᵀ)
          - Y)) := by
  obtain ⟨hU, hV, hS, hA⟩ := hd
  have heval := scaled_procrustes_primal_eval X Y d dd true hY
  have hRout : (scaled_procrustes X Y d dd true (some true)).1.toMatrix =
      d.U * d.Vᵀ := by
    rw [heval]
    rfl
  have hsout : (scaled_procrustes X Y d dd true (some true)).2 =
      (∑ i, d.S i) / frobSq X := by
    rw [heval]
    rfl
  rw [hRout, hsout]
  have hRorth := orth_square_polar hU hV
  have hAt : Xᵀ * Y = d.V * diagonal d.S * d.Uᵀ := by
    have e : Xᵀ * Y = (Yᵀ * X)ᵀ := by
      rw [Matrix.transpose_mul, Matrix.transpose_transpose]
    rw [e, hA, usv_transpose]
  have key1 : trace (((d.U * d.Vᵀ)ᵀ)ᵀ * (Xᵀ * Y)) = ∑ i, d.S i := by
    have h2 := trace_polar_eq hV hU hAt
    rw [Matrix.transpose_mul, Matrix.transpose_transpose] at h2
    rw [Matrix.transpose_transpose]
    exact h2
  have hzero : frobSq X = 0 → (∑ i, d.S i) = 0 := by
    intro h0
    have hX0 : X = 0 := frobSq_eq_zero_iff.mp h0
    have hz : (0 : Mat p p) = d.U * diagonal d.S * d.Vᵀ := by
      rw [← hA, hX0, Matrix.mul_zero]
    have hs := svd_S_zero_of_A_zero hU hV hz
    exact Finset.sum_eq_zero fun i _ => hs i
  refine ⟨hRorth, ?_, ?_⟩
  · intro Q hQ
    rw [frobSq_mul_sub_expand X Y (orthogonalM_transpose hRorth),
      frobSq_mul_sub_expand X Y hQ]
    have key2 : trace (Qᵀ * (Xᵀ * Y)) ≤ ∑ i, d.S i :=
      trace_orth_mul_le hV hU hS hAt hQ
    linarith [key1, key2]
  · intro t
    rw [frobSq_smul_sub_expand, frobSq_smul_sub_expand]
    have hM1 : frobSq (X * (d.U * d.Vᵀ)ᵀ) = frobSq X :=
      frobSq_mul_orth X (orthogonalM_transpose hRorth)
    have hM2 : frobInner (X * (d.U * d.Vᵀ)ᵀ) Y = ∑ i, d.S i := by
      rw [frobInner_mul_right]
      exact key1
    rw [hM1, hM2]
    exact quadratic_min (frobSq_nonneg X) hzero t

/-- Witness for claim C1: the hypotheses hold at the one-by-one instance and
the conclusions are instantiated at the orthogonal competitor Q = 1 and the
scale competitor t = 0. -/
theorem scaled_procrustes_primal_optimal_witness :
    wY1 ≠ 0 ∧ SVDData.valid (wY1ᵀ * wX1) wD1 ∧
    orthogonalM
      ((scaled_procrustes wX1 wY1 wD1 wDD1 true (some true)).1.toMatrix) ∧
    frobSq (wX1 *
        ((scaled_procrustes wX1 wY1 wD1 wDD1 true (some true)).1.toMatrix)ᵀ
      - wY1) ≤ frobSq (wX1 * (1 : Mat 1 1) - wY1) ∧
    frobSq ((scaled_procrustes wX1 wY1 wD1 wDD1 true (some true)).2 •
        (wX1 *
          ((scaled_procrustes wX1 wY1 wD1 wDD1 true
            (some true)).1.toMatrix)ᵀ) - wY1) ≤
      frobSq ((0:ℚ) •
        (wX1 *
          ((scaled_procrustes wX1 wY1 wD1 wDD1 true
            (some true)).1.toMatrix)ᵀ) - wY1) := by
  have hY : wY1 ≠ 0 :=
    ne_zero_of_entry wY1 0 0 (by norm_num [wY1, Matrix.one_apply])
  have hv : SVDData.valid (wY1ᵀ * wX1) wD1 := by
    refine ⟨?_, ?_, ?_, ?_⟩
    · simp [wD1]
    · simp [wD1]
    · intro i
      norm_num [wD1]
    · simp [wD1, wX1, wY1, Matrix.diagonal_one]
  have h1 := scaled_procrustes_primal_optimal wX1 wY1 wD1 wDD1 hY hv
  have hQ1 : orthogonalM (1 : Mat 1 1) := ⟨by simp, by simp⟩
  exact ⟨hY, hv, h1.1, h1.2.1 1 hQ1, h1.2.2 0⟩

/-- Counterexample to claim C1 as frozen: on X the identity and Y a quarter
turn of the plane, with a valid singular value decomposition of Yᵀ·X, the
default call returns R = Yᵀ, and the orthogonal competitor Q = Y makes the
claimed criterion ‖X·Q − Y‖² strictly smaller than at the returned R. -/
theorem scaled_procrustes_claimed_criterion_fails :
    SVDData.valid (cxY1ᵀ * cxX1) cxD1 ∧ orthogonalM cxY1 ∧
    frobSq (cxX1 * cxY1 - cxY1) <
      frobSq (cxX1 *
          (scaled_procrustes cxX1 cxY1 cxD1 (trivDual 2 2 2) false
            none).1.toMatrix - cxY1) := by
  have hY : cxY1 ≠ 0 := ne_zero_of_entry cxY1 1 0 (by norm_num [cxY1])
  have hR : (scaled_procrustes cxX1 cxY1 cxD1 (trivDual 2 2 2) false
      none).1.toMatrix = cxY1ᵀ := by
    rw [scaled_procrustes_none_primal _ _ _ _ _ hY (le_refl 2),
      scaled_procrustes_primal_eval _ _ _ _ _ hY]
    show cxD1.U * cxD1.Vᵀ = cxY1ᵀ
    ext i j
    fin_cases i <;> fin_cases j <;>
      norm_num [cxD1, cxY1, Matrix.mul_apply, Matrix.transpose_apply,
        Fin.sum_univ_two, Matrix.one_apply, Matrix.vecHead, Matrix.vecTail]
  refine ⟨?_, ?_, ?_⟩
  · refine ⟨?_, ?_, ?_, ?_⟩
    · ext i j
      fin_cases i <;> fin_cases j <;>
        norm_num [cxD1, cxY1, Matrix.mul_apply, Matrix.transpose_apply,
          Fin.sum_univ_two, Matrix.one_apply, Matrix.vecHead, Matrix.vecTail]
    · simp [cxD1]
    · intro i
      norm_num [cxD1]
    · simp [cxD1, cxX1, Matrix.diagonal_one, Matrix.mul_one,
        Matrix.transpose_one]
  · constructor <;>
      (ext i j
       fin_cases i <;> fin_cases j <;>
         norm_num [cxY1, Matrix.mul_apply, Matrix.transpose_apply,
           Fin.sum_univ_two, Matrix.one_apply, Matrix.vecHead,
           Matrix.vecTail])
  · rw [hR]
    norm_num [frobSq, cxX1, cxY1, Matrix.mul_apply, Matrix.sub_apply,
      Matrix.transpose_apply, Fin.sum_univ_two, Matrix.one_apply,
      Matrix.vecHead, Matrix.vecTail]

/-- Claim C2 (amended): the primal and dual formulations agree exactly as
matrices (R1 = R2) whenever Yᵀ·X is invertible, which is the n ≥ p regime of
the test; in general (in particular in the wide regime n < p) they agree in
their action on X, R1·Xᵀ = R2·Xᵀ, whenever the rows of X lie in the row space
of Yᵀ·X.  Equality of the matrices themselves fails in the wide regime, see
the counterexample. -/
theorem scaled_procrustes_primal_dual_agree :
    (∀ (n p k : ℕ) (X Y : Mat n p) (d : SVDData p p) (dd : DualSVD n p k),
      Y ≠ 0 → d.valid (Yᵀ * X) → dd.valid X Y → IsUnit (Yᵀ * X).det →
      (scaled_procrustes X Y d dd true (some true)).1.toMatrix =
        (scaled_procrustes X Y d dd true (some false)).1.toMatrix) ∧
    (∀ (n p k : ℕ) (X Y : Mat n p) (d : SVDData p p) (dd : DualSVD n p k)
      (W : Matrix (Fin p) (Fin n) ℚ),
      Y ≠ 0 → d.valid (Yᵀ * X) → dd.valid X Y → Xᵀ = (Yᵀ * X)ᵀ * W →
      (scaled_procrustes X Y d dd true (some true)).1.toMatrix * Xᵀ =
        (scaled_procrustes X Y d dd true (some false)).1.toMatrix * Xᵀ) := by
  constructor
  · intro n p k X Y d dd hY hd hdd hdet
    have h1 : (scaled_procrustes X Y d dd true (some true)).1.toMatrix =
        d.U * d.Vᵀ := by
      rw [scaled_procrustes_primal_eval X Y d dd true hY]
      rfl
    have h2 : (scaled_procrustes X Y d dd true (some false)).1.toMatrix =
        dd.Vy * dd.Uc * dd.Vcᵀ * dd.Vxᵀ := by
      rw [scaled_procrustes_dual_eval X Y d dd true hY]
      rfl
    rw [h1, h2, dual_output_eq]
    obtain ⟨hU, hV, hS, hA⟩ := hd
    have hrec := dual_reconstruction hdd
    obtain ⟨hUx, hVx, hSx, hX, hUy, hVy, hSy, hYe, hUc, hVc, hSc, hAc⟩ := hdd
    exact polar_unique hU hV hS hA (mul_orthonormal_cols hVy hUc)
      (mul_orthonormal_cols hVx hVc) hSc hrec hdet
  · intro n p k X Y d dd W hY hd hdd hW
    have h1 : (scaled_procrustes X Y d dd true (some true)).1.toMatrix =
        d.U * d.Vᵀ := by
      rw [scaled_procrustes_primal_eval X Y d dd true hY]
      rfl
    have h2 : (scaled_procrustes X Y d dd true (some false)).1.toMatrix =
        dd.Vy * dd.Uc * dd.Vcᵀ * dd.Vxᵀ := by
      rw [scaled_procrustes_dual_eval X Y d dd true hY]
      rfl
    rw [h1, h2, dual_output_eq, hW]
    obtain ⟨hU, hV, hS, hA⟩ := hd
    have hrec := dual_reconstruction hdd
    obtain ⟨hUx, hVx, hSx, hX, hUy, hVy, hSy, hYe, hUc, hVc, hSc, hAc⟩ := hdd
    have hact := polar_unique_action hU hV hS hA
      (mul_orthonormal_cols hVy hUc) (mul_orthonormal_cols hVx hVc) hSc hrec
    rw [← Matrix.mul_assoc, ← Matrix.mul_assoc, hact]

/-- Witness for claim C2: the tall-regime part instantiated on the one-by-one
identity data, the action part instantiated on the wide one-sample instance. -/
theorem scaled_procrustes_primal_dual_agree_witness :
    IsUnit ((wY1ᵀ * wX1)).det ∧
    (scaled_procrustes wX1 wY1 wD1 wDD1 true (some true)).1.toMatrix =
      (scaled_procrustes wX1 wY1 wD1 wDD1 true (some false)).1.toMatrix ∧
    cxX2ᵀ = (cxY2ᵀ * cxX2)ᵀ * cxW2 ∧
    (scaled_procrustes cxX2 cxY2 cxD2 cxDD2 true (some true)).1.toMatrix *
        cxX2ᵀ =
      (scaled_procrustes cxX2 cxY2 cxD2 cxDD2 true (some false)).1.toMatrix *
        cxX2ᵀ := by
  have hdet : IsUnit ((wY1ᵀ * wX1)).det := by
    have h1 : wY1ᵀ * wX1 = 1 := by simp [wX1, wY1]
    rw [h1, Matrix.det_one]
    exact isUnit_one
  have hW2 : cxX2ᵀ = (cxY2ᵀ * cxX2)ᵀ * cxW2 := by
    ext i j
    fin_cases i <;> fin_cases j <;>
      norm_num [cxX2, cxY2, cxW2, Matrix.mul_apply, Matrix.transpose_apply,
        Fin.sum_univ_one, Fin.sum_univ_two, Matrix.vecHead, Matrix.vecTail]
  exact ⟨hdet,
    scaled_procrustes_primal_dual_agree.1 1 1 1 wX1 wY1 wD1 wDD1 wY1_ne
      wD1_valid wDD1_valid hdet, hW2,
    scaled_procrustes_primal_dual_agree.2 1 2 1 cxX2 cxY2 cxD2 cxDD2 cxW2
      cxY2_ne cxD2_valid cxDD2_valid hW2⟩

/-- Counterexample to claim C2 as frozen: in the wide regime n < p the two
formulations return different matrices.  On cxX2 = cxY2 = [1 0] with valid
decomposition data for both formulations, the primal result is the 2×2
identity while the dual result is the rank-one projection, so R1 ≈ R2 fails
(their difference has an entry equal to 1, far beyond any 1e-6 tolerance). -/
theorem scaled_procrustes_primal_dual_differ :
    SVDData.valid (cxY2ᵀ * cxX2) cxD2 ∧ DualSVD.valid cxX2 cxY2 cxDD2 ∧
    (scaled_procrustes cxX2 cxY2 cxD2 cxDD2 true (some true)).1.toMatrix ≠
      (scaled_procrustes cxX2 cxY2 cxD2 cxDD2 true (some false)).1.toMatrix
    := by
  refine ⟨cxD2_valid, cxDD2_valid, ?_⟩
  have h1 : (scaled_procrustes cxX2 cxY2 cxD2 cxDD2 true
      (some true)).1.toMatrix = (1 : Mat 2 2) := by
    rw [scaled_procrustes_primal_eval cxX2 cxY2 cxD2 cxDD2 true cxY2_ne]
    show cxD2.U * cxD2.Vᵀ = 1
    simp [cxD2]
  have h2 : (scaled_procrustes cxX2 cxY2 cxD2 cxDD2 true
      (some false)).1.toMatrix = !![(1:ℚ), 0; 0, 0] := by
    rw [scaled_procrustes_dual_eval cxX2 cxY2 cxD2 cxDD2 true cxY2_ne]
    show cxDD2.Vy * cxDD2.Uc * cxDD2.Vcᵀ * cxDD2.Vxᵀ = !![(1:ℚ), 0; 0, 0]
    ext i j
    fin_cases i <;> fin_cases j <;>
      norm_num [cxDD2, Matrix.mul_apply, Matrix.transpose_apply,
        Fin.sum_univ_one, Matrix.vecHead, Matrix.vecTail]
  rw [h1, h2]
  intro h
  have h3 := congrFun (congrFun h 1) 1
  norm_num [Matrix.one_apply] at h3

/-- Claim C3 (amended): for X of full row rank (X·Xᵀ invertible) with at least
as many columns as rows, scaled_procrustes applied to Xᵀ and (R·X)ᵀ recovers
every orthogonal R exactly.  The claim as frozen fails at X = 0 (the
degenerate branch returns the identity instead of R), see the counterexample. -/
theorem scaled_procrustes_recovers_rotation {q nn k : ℕ}
    (X0 : Matrix (Fin q) (Fin nn) ℚ) (R0 : Mat q q) (d : SVDData q q)
    (dd : DualSVD nn q k) (hR : orthogonalM R0) (hq : q ≤ nn)
    (hinv : IsUnit (X0 * X0ᵀ).det)
    (hd : d.valid (R0 * (X0 * X0ᵀ))) :
    (scaled_procrustes X0ᵀ (R0 * X0)ᵀ d dd false none).1.toMatrix = R0 := by
  by_cases hY : (R0 * X0)ᵀ = 0
  · have hRX : R0 * X0 = 0 := by
      have h1 := congrArg Matrix.transpose hY
      rwa [Matrix.transpose_transpose, Matrix.transpose_zero] at h1
    have hX0 : X0 = 0 := by
      have e : X0 = R0ᵀ * (R0 * X0) := by
        rw [← Matrix.mul_assoc, hR.1, Matrix.one_mul]
      rw [e, hRX, Matrix.mul_zero]
    rcases Nat.eq_zero_or_pos q with hq0 | hqpos
    · subst hq0
      ext i j
      exact i.elim0
    · exfalso
      have hdet0 : (X0 * X0ᵀ).det = 0 := by
        rw [hX0, Matrix.zero_mul]
        exact Matrix.det_zero ⟨⟨0, hqpos⟩⟩
      rw [hdet0] at hinv
      exact not_isUnit_zero hinv
  · rw [scaled_procrustes_none_primal _ _ _ _ _ hY hq,
      scaled_procrustes_primal_eval _ _ _ _ _ hY]
    show d.U * d.Vᵀ = R0
    obtain ⟨hU, hV, hS, hA⟩ := hd
    have hdet : IsUnit (R0 * (X0 * X0ᵀ)).det := by
      rw [Matrix.det_mul]
      exact (orth_det_isUnit hR).mul hinv
    exact (polar_eq_of_orth_psd hR (gram_psd X0) rfl hU hV hS hA hdet).1

/-- Witness for claim C3: the 3-4-5 rational rotation is recovered from the
identity sample matrix. -/
theorem scaled_procrustes_recovers_rotation_witness :
    orthogonalM cxR0 ∧ IsUnit ((1 : Mat 2 2) * (1 : Mat 2 2)ᵀ).det ∧
    SVDData.valid (cxR0 * ((1 : Mat 2 2) * (1 : Mat 2 2)ᵀ)) wD3 ∧
    (scaled_procrustes ((1 : Mat 2 2))ᵀ ((cxR0 * (1 : Mat 2 2))ᵀ) wD3
      (trivDual 2 2 2) false none).1.toMatrix = cxR0 := by
  have hinv : IsUnit ((1 : Mat 2 2) * (1 : Mat 2 2)ᵀ).det := by
    rw [Matrix.transpose_one, Matrix.mul_one, Matrix.det_one]
    exact isUnit_one
  exact ⟨cxR0_orth, hinv, wD3_valid,
    scaled_procrustes_recovers_rotation 1 cxR0 wD3 (trivDual 2 2 2) cxR0_orth
      (by norm_num) hinv wD3_valid⟩

/-- Counterexample to claim C3 as frozen: at X = 0 (every rotation satisfies
Y = R·X = 0) the degenerate branch returns the identity, not the rotation; the
3-4-5 rotation differs from the identity by 2/5 in the first entry, far beyond
any 1e-6 tolerance. -/
theorem scaled_procrustes_zero_input_misses_rotation :
    orthogonalM cxR0 ∧ cxR0.det = 1 ∧
    (scaled_procrustes ((0 : Mat 2 2))ᵀ ((cxR0 * (0 : Mat 2 2))ᵀ) (trivD 2)
      (trivDual 2 2 2) false none).1.toMatrix ≠ cxR0 := by
  refine ⟨cxR0_orth, ?_, ?_⟩
  · norm_num [cxR0, Matrix.det_fin_two, Matrix.vecHead, Matrix.vecTail]
  · have hz : (cxR0 * (0 : Mat 2 2))ᵀ = (0 : Mat 2 2) := by
      rw [Matrix.mul_zero, Matrix.transpose_zero]
    rw [hz]
    have heval : scaled_procrustes ((0 : Mat 2 2))ᵀ (0 : Mat 2 2) (trivD 2)
        (trivDual 2 2 2) false none = (RMat.sparse 1, 1) := by
      simp [scaled_procrustes]
    rw [heval]
    intro h
    have h2 := congrFun (congrFun h 0) 0
    norm_num [RMat.toMatrix, Matrix.one_apply, cxR0] at h2

/-- Claim C4: whenever the target was generated as an exact orthogonal
transform of the source, Y = R·X with R orthogonal, fitting
ScaledOrthogonalAlignment (scaling off) on Xᵀ, Yᵀ and transforming X returns
exactly Y = R·X.  This holds for every X with at least as many columns as rows
(the regime of the test scenario), including rank-deficient and zero X. -/
theorem scaled_orthogonal_alignment_roundtrip {q nn k : ℕ}
    (X0 : Matrix (Fin q) (Fin nn) ℚ) (R0 : Mat q q) (d : SVDData q q)
    (dd : DualSVD nn q k) (hR : orthogonalM R0) (hq : q ≤ nn)
    (hd : d.valid (R0 * (X0 * X0ᵀ))) :
    ((ScaledOrthogonalAlignment.new q false).fit X0ᵀ (R0 * X0)ᵀ d
        dd).transform X0 = Except.ok (R0 * X0) := by
  by_cases hY : (R0 * X0)ᵀ = 0
  · have hRX : R0 * X0 = 0 := by
      have h1 := congrArg Matrix.transpose hY
      rwa [Matrix.transpose_transpose, Matrix.transpose_zero] at h1
    have hX0 : X0 = 0 := by
      have e : X0 = R0ᵀ * (R0 * X0) := by
        rw [← Matrix.mul_assoc, hR.1, Matrix.one_mul]
      rw [e, hRX, Matrix.mul_zero]
    have heval : scaled_procrustes X0ᵀ ((R0 * X0)ᵀ) d dd false none =
        (RMat.sparse 1, 1) := by
      rw [hY]
      simp [scaled_procrustes]
    have hstep : ((ScaledOrthogonalAlignment.new q false).fit X0ᵀ (R0 * X0)ᵀ
        d dd).transform X0 =
        Except.ok ((scaled_procrustes X0ᵀ (R0 * X0)ᵀ d dd false none).2 •
          ((scaled_procrustes X0ᵀ (R0 * X0)ᵀ d dd false
            none).1.toMatrix * X0)) := rfl
    rw [hstep, heval]
    show Except.ok ((1:ℚ) • ((1 : Mat q q) * X0)) = Except.ok (R0 * X0)
    rw [one_smul, Matrix.one_mul, hRX, hX0]
  · have heval2 : scaled_procrustes X0ᵀ ((R0 * X0)ᵀ) d dd false none =
        (RMat.dense (d.U * d.Vᵀ), 1) := by
      rw [scaled_procrustes_none_primal _ _ _ _ _ hY hq,
        scaled_procrustes_primal_eval _ _ _ _ _ hY]
      rfl
    obtain ⟨hU, hV, hS, hA⟩ := hd
    have hact := polar_action_of_orth_gram X0 hR hU hV hS hA
    have hstep : ((ScaledOrthogonalAlignment.new q false).fit X0ᵀ (R0 * X0)ᵀ
        d dd).transform X0 =
        Except.ok ((scaled_procrustes X0ᵀ (R0 * X0)ᵀ d dd false none).2 •
          ((scaled_procrustes X0ᵀ (R0 * X0)ᵀ d dd false
            none).1.toMatrix * X0)) := rfl
    rw [hstep, heval2]
    show Except.ok ((1:ℚ) • (d.U * d.Vᵀ * X0)) = Except.ok (R0 * X0)
    rw [one_smul, hact]

/-- Witness for claim C4: the 3-4-5 rotation of the identity sample matrix is
reproduced by fit-then-transform. -/
theorem scaled_orthogonal_alignment_roundtrip_witness :
    orthogonalM cxR0 ∧
    SVDData.valid (cxR0 * ((1 : Mat 2 2) * (1 : Mat 2 2)ᵀ)) wD3 ∧
    ((ScaledOrthogonalAlignment.new 2 false).fit ((1 : Mat 2 2))ᵀ
        ((cxR0 * (1 : Mat 2 2))ᵀ) wD3 (trivDual 2 2 2)).transform
        (1 : Mat 2 2) = Except.ok (cxR0 * (1 : Mat 2 2)) :=
  ⟨cxR0_orth, wD3_valid,
    scaled_orthogonal_alignment_roundtrip 1 cxR0 wD3 (trivDual 2 2 2)
      cxR0_orth (by norm_num) wD3_valid⟩

/-- Claim C6 (amended): for a positive scalar c and X of full column rank,
scaled_procrustes on X and c·X with scaling on returns exactly the identity
matrix and scale c; with scaling off the returned scale is 1.  The claim as
frozen, quantified over every scalar, fails for negative c, see the
counterexample. -/
theorem scaled_procrustes_scalar_multiple {n p k : ℕ} (X : Mat n p) (c : ℚ)
    (d : SVDData p p) (dd : DualSVD n p k) (hc : 0 < c) (hX : X ≠ 0)
    (hpn : p ≤ n) (hinv : IsUnit (Xᵀ * X).det)
    (hd : d.valid ((c • X)ᵀ * X)) :
    (scaled_procrustes X (c • X) d dd true none).1.toMatrix = 1 ∧
    (scaled_procrustes X (c • X) d dd true none).2 = c ∧
    (scaled_procrustes X (c • X) d dd false none).2 = 1 := by
  have hY : c • X ≠ 0 := smul_ne_zero (ne_of_gt hc) hX
  have hAc : (c • X)ᵀ * X = c • (Xᵀ * X) := by
    rw [Matrix.transpose_smul, Matrix.smul_mul]
  obtain ⟨hU, hV, hS, hA⟩ := hd
  rw [hAc] at hA
  have hPX : PSD (Xᵀ * X) := by
    have h1 := gram_psd Xᵀ
    rwa [Matrix.transpose_transpose] at h1
  have hP : PSD (c • (Xᵀ * X)) := psd_smul hPX hc.le
  have hdetA : IsUnit (c • (Xᵀ * X)).det := by
    rw [Matrix.det_smul]
    exact ((isUnit_iff_ne_zero.mpr (ne_of_gt hc)).pow _).mul hinv
  have hQ1 : orthogonalM (1 : Mat p p) := ⟨by simp, by simp⟩
  have hpolar := polar_eq_of_orth_psd hQ1 hP (Matrix.one_mul _).symm hU hV hS
    hA hdetA
  have hsum : (∑ i, d.S i) = c * frobSq X := by
    have h1 : trace (d.V * diagonal d.S * d.Vᵀ) = ∑ i, d.S i :=
      trace_conj_orthonormal hV d.S
    rw [hpolar.2] at h1
    rw [← h1, Matrix.trace_smul, trace_transpose_mul_self, smul_eq_mul]
  have hfrob : frobSq X ≠ 0 := fun h => hX (frobSq_eq_zero_iff.mp h)
  refine ⟨?_, ?_, ?_⟩
  · rw [scaled_procrustes_none_primal X (c • X) d dd true hY hpn,
      scaled_procrustes_primal_eval X (c • X) d dd true hY]
    show d.U * d.Vᵀ = 1
    exact hpolar.1
  · rw [scaled_procrustes_none_primal X (c • X) d dd true hY hpn,
      scaled_procrustes_primal_eval X (c • X) d dd true hY]
    show (∑ i, d.S i) / frobSq X = c
    rw [hsum, mul_div_assoc, div_self hfrob, mul_one]
  · rw [scaled_procrustes_none_primal X (c • X) d dd false hY hpn,
      scaled_procrustes_primal_eval X (c • X) d dd false hY]
    rfl

/-- Witness for claim C6: scaling the one-by-one identity by 2 returns the
identity and scale 2, and scale 1 with scaling off. -/
theorem scaled_procrustes_scalar_multiple_witness :
    SVDData.valid (((2:ℚ) • wX1)ᵀ * wX1) wD6 ∧
    IsUnit (wX1ᵀ * wX1).det ∧
    (scaled_procrustes wX1 ((2:ℚ) • wX1) wD6 wDD1 true none).1.toMatrix = 1 ∧
    (scaled_procrustes wX1 ((2:ℚ) • wX1) wD6 wDD1 true none).2 = 2 ∧
    (scaled_procrustes wX1 ((2:ℚ) • wX1) wD6 wDD1 false none).2 = 1 := by
  have hv : SVDData.valid (((2:ℚ) • wX1)ᵀ * wX1) wD6 := by
    refine ⟨?_, ?_, ?_, ?_⟩
    · simp [wD6]
    · simp [wD6]
    · intro i
      norm_num [wD6]
    · ext i j
      fin_cases i <;> fin_cases j <;>
        norm_num [wD6, wX1, Matrix.mul_apply, Matrix.transpose_apply,
          Fin.sum_univ_one, Matrix.diagonal, Matrix.one_apply,
          Matrix.smul_apply]
  have hinv : IsUnit (wX1ᵀ * wX1).det := by
    have h1 : wX1ᵀ * wX1 = 1 := by simp [wX1]
    rw [h1, Matrix.det_one]
    exact isUnit_one
  have hX : wX1 ≠ 0 := ne_zero_of_entry wX1 0 0
    (by norm_num [wX1, Matrix.one_apply])
  have h := scaled_procrustes_scalar_multiple wX1 2 wD6 wDD1 (by norm_num)
    hX (le_refl 1) hinv hv
  exact ⟨hv, hinv, h.1, h.2.1, h.2.2⟩

/-- Counterexample to claim C6 as frozen: for the negative scalar c = −1 on
the one-by-one identity, with a valid decomposition of the product matrix, the
returned matrix is −1 (not the identity) and the returned scale is 1 (not c). -/
theorem scaled_procrustes_negative_scalar_fails :
    SVDData.valid (((-1 : ℚ) • cxX6)ᵀ * cxX6) cxD6 ∧
    (scaled_procrustes cxX6 ((-1 : ℚ) • cxX6) cxD6 (trivDual 1 1 1) true
      none).1.toMatrix ≠ 1 ∧
    (scaled_procrustes cxX6 ((-1 : ℚ) • cxX6) cxD6 (trivDual 1 1 1) true
      none).2 ≠ -1 := by
  have hY : (-1 : ℚ) • cxX6 ≠ 0 := by
    intro h
    have h2 := congrFun (congrFun h 0) 0
    norm_num [cxX6, Matrix.smul_apply, Matrix.one_apply] at h2
  have heval : scaled_procrustes cxX6 ((-1 : ℚ) • cxX6) cxD6 (trivDual 1 1 1)
      true none = (RMat.dense (cxD6.U * cxD6.Vᵀ),
        (∑ i, cxD6.S i) / frobSq cxX6) := by
    rw [scaled_procrustes_none_primal _ _ _ _ _ hY (le_refl 1),
      scaled_procrustes_primal_eval _ _ _ _ _ hY]
    rfl
  refine ⟨?_, ?_, ?_⟩
  · refine ⟨?_, ?_, ?_, ?_⟩
    · ext i j
      fin_cases i <;> fin_cases j <;>
        norm_num [cxD6, Matrix.mul_apply, Matrix.transpose_apply,
          Fin.sum_univ_one, Matrix.one_apply, Matrix.vecHead, Matrix.vecTail]
    · simp [cxD6]
    · intro i
      norm_num [cxD6]
    · ext i j
      fin_cases i <;> fin_cases j <;>
        norm_num [cxD6, cxX6, Matrix.mul_apply, Matrix.transpose_apply,
          Fin.sum_univ_one, Matrix.diagonal, Matrix.one_apply,
          Matrix.smul_apply, Matrix.vecHead, Matrix.vecTail]
  · rw [heval]
    intro h
    have h2 := congrFun (congrFun h 0) 0
    norm_num [RMat.toMatrix, cxD6, Matrix.mul_apply, Matrix.transpose_apply,
      Fin.sum_univ_one, Matrix.one_apply, Matrix.vecHead,
      Matrix.vecTail] at h2
  · rw [heval]
    show (∑ i, cxD6.S i) / frobSq cxX6 ≠ -1
    norm_num [cxD6, cxX6, frobSq, Fin.sum_univ_one, Matrix.one_apply]

end Fmralign
